import Mathlib

/-
Verification development for the string-to-arb extractor.

The core logic of the repository is embedded shallowly:
  * text is modelled as `List Char`;
  * a Resource Document (a parsed ARB/JSON object) is modelled as an
    association list in property insertion order, which is the serialized
    key order produced by JSON.stringify for the (non array-index) keys
    this system manipulates;
  * JavaScript regular-expression scans are modelled by fuel-based
    character scanners implementing the exact leftmost-match semantics of
    the regexes in src/utils.ts and src/arb.ts;
  * interactive prompts, file-system and network effects are modelled as
    explicit parameters (choices, outcome flags) so each function is pure.
-/

set_option maxRecDepth 4000

namespace StringToArb

/-- Abbreviation turning a string literal into the character-list model of text. -/
def strL (s : String) : List Char := s.toList

/-- JS regex word character class (backslash-w): ASCII letters, digits, underscore. -/
def isWordChar (c : Char) : Bool :=
  let n := c.toNat
  (97 ≤ n && n ≤ 122) || (65 ≤ n && n ≤ 90) || (48 ≤ n && n ≤ 57) || n == 95

/-- JS regex whitespace class (backslash-s): ASCII whitespace plus the Unicode
whitespace code points recognised by JavaScript. -/
def isJsWs (c : Char) : Bool :=
  let n := c.toNat
  n == 32 || n == 9 || n == 10 || n == 11 || n == 12 || n == 13 ||
  n == 160 || n == 5760 || (8192 ≤ n && n ≤ 8202) || n == 8232 || n == 8233 ||
  n == 8239 || n == 8287 || n == 12288 || n == 65279

/-- JS line terminators, the code points that `.` does not match. -/
def isLineTerm (c : Char) : Bool :=
  let n := c.toNat
  n == 10 || n == 13 || n == 8232 || n == 8233

/-- The four binary operator characters of the trailing-math-op stripping regex
in `detectAndConvertPlaceholders`. -/
def isMathOp (c : Char) : Bool :=
  c == '+' || c == '-' || c == '*' || c == '/'

/-- Lowercase ASCII letter test. -/
def isLowerAlpha (c : Char) : Bool :=
  let n := c.toNat
  97 ≤ n && n ≤ 122

/-- ASCII digit test. -/
def isDigitCh (c : Char) : Bool :=
  let n := c.toNat
  48 ≤ n && n ≤ 57

/-- ASCII alphanumeric test, the character class of the key pattern. -/
def isAlnumCh (c : Char) : Bool :=
  let n := c.toNat
  (97 ≤ n && n ≤ 122) || (65 ≤ n && n ≤ 90) || (48 ≤ n && n ≤ 57)

/-- Characters kept by the `[^a-zA-Z0-9\s]` stripping step of
`generateSuggestedKey`: ASCII alphanumerics and JS whitespace. -/
def isKeepChar (c : Char) : Bool :=
  isAlnumCh c || isJsWs c

/-- String.prototype.toLowerCase restricted to the characters reachable in
`generateSuggestedKey` (ASCII letters; everything else is fixed). -/
def lowerChar (c : Char) : Char :=
  let n := c.toNat
  if 65 ≤ n && n ≤ 90 then Char.ofNat (n + 32) else c

/-- String.prototype.toUpperCase on a single character, restricted to ASCII
letters as reachable in `generateSuggestedKey`. -/
def capChar (c : Char) : Char :=
  let n := c.toNat
  if 97 ≤ n && n ≤ 122 then Char.ofNat (n - 32) else c

/-- JS String.prototype.trim. -/
def trimWs (l : List Char) : List Char :=
  ((l.dropWhile isJsWs).reverse.dropWhile isJsWs).reverse

/-- Checks that the first argument is a leading segment of the second. -/
def hasPfx : List Char → List Char → Bool
  | [], _ => true
  | _ :: _, [] => false
  | p :: ps, c :: cs => p == c && hasPfx ps cs

/-- JS String.prototype.includes: substring containment. -/
def containsSub : List Char → List Char → Bool
  | [], pat => pat.isEmpty
  | c :: rest, pat => hasPfx pat (c :: rest) || containsSub rest pat

/-- JS GetSubstitution for a replacement template against a match of a literal
(escaped) pattern: the two-character sequences dollar-dollar, dollar-ampersand,
dollar-backquote and dollar-quote expand to a dollar sign, the matched
substring, the portion before the match and the portion after the match; the
pattern has no capture groups and no named groups, so digit and angle-bracket
forms stay literal, as does a trailing lone dollar sign. -/
def expandRepl (before matched after : List Char) : List Char → List Char
  | [] => []
  | c :: r =>
    if c = '$' then
      match r with
      | [] => ['$']
      | d :: r2 =>
        if d = '$' then '$' :: expandRepl before matched after r2
        else if d = '&' then matched ++ expandRepl before matched after r2
        else if d.toNat == 96 then before ++ expandRepl before matched after r2
        else if d.toNat == 39 then after ++ expandRepl before matched after r2
        else '$' :: expandRepl before matched after (d :: r2)
    else c :: expandRepl before matched after r

/-- Scan for the leftmost occurrence of the pattern, carrying the (reversed)
prefix already passed; on a match, substitute the expanded template. -/
def replaceFirstGo (pat tmpl : List Char) : List Char → List Char → List Char
  | pre, [] => pre.reverse
  | pre, c :: rest =>
    if hasPfx pat (c :: rest) then
      pre.reverse ++ expandRepl pre.reverse pat ((c :: rest).drop pat.length) tmpl
        ++ (c :: rest).drop pat.length
    else replaceFirstGo pat tmpl (c :: pre) rest

/-- JS String.prototype.replace with a non-global literal (regex-escaped)
pattern: replaces the leftmost occurrence of `pat` (if any) by the template
`tmpl`, with the replacement-pattern expansion of GetSubstitution. -/
def replaceFirstSub (s pat tmpl : List Char) : List Char :=
  replaceFirstGo pat tmpl [] s

/-- Whether the regex tail backslash-s* .+ $ can match the remainder that
follows an operator: some split point is preceded only by whitespace (which
includes the line terminators) and is followed by at least one character and
no line terminator up to the very end (`.` does not cross line terminators
and `$` anchors only at the end of the input). -/
def tailViable : List Char → Bool
  | [] => false
  | c :: r => ((c :: r).all fun d => !isLineTerm d) || (isJsWs c && tailViable r)

/-- Leftmost match of the regex backslash-s* [+ - * /] backslash-s* .+ $ used to
strip a trailing mathematical expression: returns the index at which the match
starts (the start of the whitespace run directly before the first viable
operator), if any.  An operator position is viable when the regex tail can
match what follows it. -/
def mathCutAux : List Char → Nat → Option Nat → Option Nat
  | [], _, _ => none
  | c :: r, i, wsS =>
    if isMathOp c && tailViable r then
      some (wsS.getD i)
    else if isJsWs c then mathCutAux r (i+1) (some (wsS.getD i))
    else mathCutAux r (i+1) none

/-- `full.replace(/\s*[\+\-\*\/]\s*.+$/, '')` from `detectAndConvertPlaceholders`. -/
def mathStrip (l : List Char) : List Char :=
  match mathCutAux l 0 none with
  | some i => l.take i
  | none => l

/-- `.replace(/!$/, '')`: drop a single trailing null-assertion marker. -/
def dropBang (l : List Char) : List Char :=
  if l.getLast? = some '!' then l.dropLast else l

/-- JS String.prototype.split with separator "." (keeps empty segments;
the empty string splits to one empty segment). -/
def splitOnDot : List Char → List (List Char)
  | [] => [[]]
  | c :: r =>
    if c = '.' then [] :: splitOnDot r
    else
      match splitOnDot r with
      | [] => [[c]]
      | w :: ws => (c :: w) :: ws

/-- Placeholder-name derivation of `detectAndConvertPlaceholders`: strip a
trailing math-operator expression, strip a trailing `!`, trim, split on `.`,
take the last segment, falling back to `variable` when it is empty. -/
def simpleNameOf (full : List Char) : List Char :=
  let c1 := mathStrip full
  let c2 := dropBang c1
  let c3 := trimWs c2
  let parts := splitOnDot c3
  let nm := (parts.getLast?).getD []
  if nm.isEmpty then strL "variable" else nm

/-- One attempt of the first regex alternative `\$\{([^}]+)\}` at a position just
after a `$`: on success returns the captured expression and the remaining
suffix after the closing brace. -/
def tryBraced (r : List Char) : Option (List Char × List Char) :=
  match r with
  | [] => none
  | c :: t =>
    if c = '{' then
      let expr := t.takeWhile (fun d => d ≠ '}')
      match t.dropWhile (fun d => d ≠ '}') with
      | [] => none
      | _ :: r2 => if expr.isEmpty then none else some (expr, r2)
    else none

/-- All matches of the global regex `\$\{([^}]+)\}|\$(\w+)` in left-to-right
order.  Each match is returned as (matched substring, captured expression).
The fuel argument dominates the length of the text and only guarantees
structural recursion; every step consumes at least one character. -/
def dartScanAux : Nat → List Char → List (List Char × List Char)
  | 0, _ => []
  | _ + 1, [] => []
  | fuel + 1, c :: r =>
    if c = '$' then
      match tryBraced r with
      | some (expr, r2) =>
          ('$' :: '{' :: (expr ++ ['}']), expr) :: dartScanAux fuel r2
      | none =>
          let w := r.takeWhile isWordChar
          if w.isEmpty then dartScanAux fuel r
          else ('$' :: w, w) :: dartScanAux fuel (r.drop w.length)
    else dartScanAux fuel r

/-- Matches of the Dart-placeholder regex over a text. -/
def dartScan (t : List Char) : List (List Char × List Char) :=
  dartScanAux t.length t

/-- All captures of the global regex `\{([^}]+)\}` in left-to-right order. -/
def arbScanAux : Nat → List Char → List (List Char)
  | 0, _ => []
  | _ + 1, [] => []
  | fuel + 1, c :: r =>
    if c = '{' then
      let expr := r.takeWhile (fun d => d ≠ '}')
      match r.dropWhile (fun d => d ≠ '}') with
      | [] => arbScanAux fuel r
      | _ :: r2 => if expr.isEmpty then arbScanAux fuel r else expr :: arbScanAux fuel r2
    else arbScanAux fuel r

/-- Captures of the ARB-placeholder regex over a text. -/
def arbScan (t : List Char) : List (List Char) :=
  arbScanAux t.length t

/-- The result record of `detectAndConvertPlaceholders` (PlaceholderInfo in
src/types.ts), also used as the running state of its two loops. -/
structure PlaceholderInfo where
  originalPlaceholders : List (List Char)
  arbPlaceholders : List (List Char)
  arbText : List Char
deriving Repr, DecidableEq

/-- Body of the Dart-conversion loop of `detectAndConvertPlaceholders` for one
regex match: deduplicate by the original expression, then replace the first
occurrence of the matched substring unless the braced name is already
present in the text being built. -/
def stepDart (st : PlaceholderInfo) (m : List Char × List Char) : PlaceholderInfo :=
  let name := simpleNameOf m.2
  let st1 :=
    if m.2 ∈ st.originalPlaceholders then st
    else { st with
            originalPlaceholders := st.originalPlaceholders ++ [m.2],
            arbPlaceholders := st.arbPlaceholders ++ [name] }
  let brace : List Char := '{' :: (name ++ ['}'])
  if containsSub st1.arbText brace then st1
  else { st1 with arbText := replaceFirstSub st1.arbText m.1 brace }

/-- Body of the ARB-style collection loop of `detectAndConvertPlaceholders` for
one capture: record names not yet accounted for, using the name itself as
the original expression. -/
def stepArb (st : PlaceholderInfo) (name : List Char) : PlaceholderInfo :=
  if name ∈ st.arbPlaceholders then st
  else { st with
          originalPlaceholders := st.originalPlaceholders ++ [name],
          arbPlaceholders := st.arbPlaceholders ++ [name] }

/-- `detectAndConvertPlaceholders` from src/utils.ts: convert Dart-style
interpolations to named ARB placeholders, then account for pre-existing
ARB-style placeholders. -/
def detectAndConvertPlaceholders (text : List Char) : PlaceholderInfo :=
  let st1 := (dartScan text).foldl stepDart ⟨[], [], text⟩
  (arbScan st1.arbText).foldl stepArb st1

/-- Words of a text: the maximal runs of non-whitespace characters.  This is
`trim`-med text split on `/\s+/` with empty tokens filtered out, exactly the
token list reaching the camel-case join of `generateSuggestedKey`. -/
def wordsByAux : Nat → List Char → List (List Char)
  | 0, _ => []
  | _ + 1, [] => []
  | fuel + 1, c :: r =>
    if isJsWs c then wordsByAux fuel r
    else (c :: r.takeWhile (fun d => !isJsWs d)) ::
         wordsByAux fuel (r.dropWhile (fun d => !isJsWs d))

/-- Maximal non-whitespace runs of a text. -/
def wordsBy (l : List Char) : List (List Char) :=
  wordsByAux l.length l

/-- Global removal of `\{[^}]+\}` matches, the first step of
`generateSuggestedKey`. -/
def stripBracedAux : Nat → List Char → List Char
  | 0, s => s
  | _ + 1, [] => []
  | fuel + 1, c :: r =>
    if c = '{' then
      let expr := r.takeWhile (fun d => d ≠ '}')
      match r.dropWhile (fun d => d ≠ '}') with
      | [] => c :: stripBracedAux fuel r
      | _ :: r2 =>
          if expr.isEmpty then c :: stripBracedAux fuel r
          else stripBracedAux fuel r2
    else c :: stripBracedAux fuel r

/-- Remove every braced placeholder from a text. -/
def stripBraced (l : List Char) : List Char :=
  stripBracedAux l.length l

/-- Uppercase the first character of a word (the camel-case step for every word
after the first in `generateSuggestedKey`). -/
def capWordHead : List Char → List Char
  | [] => []
  | c :: r => capChar c :: r

/-- Camel-case mapping: the word at index 0 is kept, later words get their
first character uppercased. -/
def camelMap : List (List Char) → List (List Char)
  | [] => []
  | w :: rest => w :: rest.map capWordHead

/-- `generateSuggestedKey` from src/utils.ts. -/
def generateSuggestedKey (text : List Char) : List Char :=
  let cleanText := stripBraced text
  let filtered := cleanText.filter isKeepChar
  let trimmed := trimWs filtered
  let lowered := trimmed.map lowerChar
  let key := (camelMap (wordsBy lowered)).flatten
  let key := key.take 40
  if key.isEmpty then strL "myString" else key

/-- The character list the camel-case join of `generateSuggestedKey` is built
from, before truncation and fallback. -/
def keyCore (t : List Char) : List Char :=
  (camelMap (wordsBy (((trimWs ((stripBraced t).filter isKeepChar))).map lowerChar))).flatten

/-- The key shape claimed by the specification: `^[a-z][a-zA-Z0-9]*$`. -/
def keyShapeOk (l : List Char) : Bool :=
  match l with
  | [] => false
  | c :: cs => isLowerAlpha c && cs.all isAlnumCh

/-- The key shape the code actually guarantees: `^[a-z0-9][a-zA-Z0-9]*$`. -/
def keyShapeRelaxed (l : List Char) : Bool :=
  match l with
  | [] => false
  | c :: cs => (isLowerAlpha c || isDigitCh c) && cs.all isAlnumCh

/-! ### Resource Documents -/

/-- A JSON value stored in a Resource Document: a translatable string value or
a placeholder-metadata object `{ "placeholders": { name: { "type": "String" } } }`.
These are the only value shapes this system ever writes. -/
inductive ArbValue where
  | vstr (s : List Char)
  | vmeta (placeholders : List (List Char))
deriving Repr, DecidableEq

/-- A Resource Document: keys with values in property insertion order (the
serialized key order of JSON.stringify for these keys). -/
abbrev Doc := List (List Char × ArbValue)

/-- The reserved end-of-file sentinel key. -/
def markerKey : List Char := strL "@_END_OF_FILE"

/-- The metadata key `@` + key. -/
def metaKey (k : List Char) : List Char := '@' :: k

/-- Property lookup, first (unique) entry with the given key. -/
def getProp : Doc → List Char → Option ArbValue
  | [], _ => none
  | e :: rest, k => if e.1 = k then some e.2 else getProp rest k

/-- Object.prototype.hasOwnProperty. -/
def hasProp (d : Doc) (k : List Char) : Bool :=
  (getProp d k).isSome

/-- The keys of a document in serialized order. -/
def keysOf (d : Doc) : List (List Char) :=
  d.map (fun e => e.1)

/-- The last serialized key of a document. -/
def lastKeyOf (d : Doc) : Option (List Char) :=
  d.getLast?.map (fun e => e.1)

/-- JS property assignment `obj[k] = v`: update in place when the key exists
(its position is kept), otherwise append the new key last. -/
def setProp : Doc → List Char → ArbValue → Doc
  | [], k, v => [(k, v)]
  | e :: rest, k, v => if e.1 = k then (k, v) :: rest else e :: setProp rest k v

/-- JS `delete obj[k]`: remove the entry under the key. -/
def delProp : Doc → List Char → Doc
  | [], _ => []
  | e :: rest, k => if e.1 = k then delProp rest k else e :: delProp rest k

instance : Inhabited ArbValue := ⟨.vstr []⟩

/-- JS truthiness of a stored value: the empty string is falsy, every other
string and every object is truthy. -/
def truthyVal : ArbValue → Bool
  | .vstr s => !s.isEmpty
  | .vmeta _ => true

/-- Truthiness of `obj[k]` as used by the `if (arbContent[userKey])` and
`while (arbContent[newKey])` tests in `handleConflicts`. -/
def truthyProp (d : Doc) (k : List Char) : Bool :=
  match getProp d k with
  | some v => truthyVal v
  | none => false

/-- The placeholder-metadata object built by `arbPlaceholders.reduce`: an
object keyed by placeholder name, so a repeated name collapses to its first
occurrence. -/
def dedupKeys (phs : List (List Char)) : List (List Char) :=
  phs.foldl (fun acc p => if p ∈ acc then acc else acc ++ [p]) []

/-- The shared read-modify pattern of `updateSourceArb` (src/arb.ts lines
127-156) and of the per-target mutation in `performTranslations`
(src/translation.ts lines 51-87): detach the end-of-file marker if present,
set the key to the string value, add the placeholder metadata entry when the
placeholder list is non-empty, then re-attach the marker. -/
def insertEntry (d : Doc) (key val : List Char) (phs : List (List Char)) : Doc :=
  let mv := getProp d markerKey
  let d1 := if hasProp d markerKey then delProp d markerKey else d
  let d2 := setProp d1 key (.vstr val)
  let d3 := if phs.isEmpty then d2 else setProp d2 (metaKey key) (.vmeta (dedupKeys phs))
  match mv with
  | some v => setProp d3 markerKey v
  | none => d3

/-- `updateSourceArb` from src/arb.ts: mutate the document in place and attempt
the file write; the boolean parameter is the outcome of `fs.promises.writeFile`.
Returns the reported success flag together with the in-memory document, which
is never rolled back. -/
def updateSourceArb (d : Doc) (key value : List Char) (writeOk : Bool) : Bool × Doc :=
  (writeOk, insertEntry d key value (detectAndConvertPlaceholders value).arbPlaceholders)

/-! ### Conflict resolution -/

/-- The user decision at the key-collision quick pick. -/
inductive KeyChoice where
  | useExisting
  | createNew
deriving Repr, DecidableEq

/-- The user decision at the value-collision quick pick. -/
inductive ValChoice where
  | useExisting
  | addAnyway
deriving Repr, DecidableEq

/-- ConflictResult from src/types.ts. -/
structure ConflictResult where
  shouldReturn : Bool
  keyUsed : Option (List Char) := none
  keyToUse : List Char
  replacement : Option (List Char) := none
deriving Repr, DecidableEq

/-- Decimal digit character. -/
def digitCharOf (n : Nat) : Char := Char.ofNat (48 + n)

/-- Decimal representation of a positive number, most significant digit first. -/
def natDecAux : Nat → Nat → List Char
  | 0, _ => []
  | fuel + 1, n => if n = 0 then [] else natDecAux fuel (n / 10) ++ [digitCharOf (n % 10)]

/-- JS number-to-string for the suffix counter. -/
def natDec (n : Nat) : List Char :=
  if n = 0 then ['0'] else natDecAux n n

/-- Numeric value of a decimal digit string (used to verify that the decimal
rendering of the counter is injective). -/
def decVal (l : List Char) : Nat :=
  l.foldl (fun a c => a * 10 + (c.toNat - 48)) 0

/-- The generated key `userKey_counter`. -/
def sfxKey (base : List Char) (c : Nat) : List Char :=
  base ++ '_' :: natDec c

/-- The suffix-search loop `while (arbContent[newKey]) counter++` of
`handleConflicts`.  The fuel only bounds the search; `d.length + 1`
candidates always contain a non-truthy key. -/
def firstFreeAux (d : Doc) (base : List Char) : Nat → Nat → List Char
  | 0, c => sfxKey base c
  | fuel + 1, c =>
    if truthyProp d (sfxKey base c) then firstFreeAux d base fuel (c + 1)
    else sfxKey base c

/-- First generated key `userKey_1`, `userKey_2`, ... whose entry is not truthy. -/
def firstFree (d : Doc) (base : List Char) : List Char :=
  firstFreeAux d base (d.length + 1) 1

/-- The first key in document order whose value is a string equal to the given
text (`Object.keys(arbContent).find(...)` in step 2 of `handleConflicts`). -/
def findStrEq (d : Doc) (t : List Char) : Option (List Char) :=
  (d.find? (fun e =>
    match e.2 with
    | .vstr s => decide (s = t)
    | .vmeta _ => false)).map (fun e => e.1)

/-- The replacement expression `prefix.key(args)` or `prefix.key` computed from
the re-detected original placeholders of the selection. -/
def mkReplacement (pfx key : List Char) (origs : List (List Char)) : List Char :=
  if origs.isEmpty then pfx ++ '.' :: key
  else pfx ++ '.' :: key ++ '(' :: (List.intercalate (strL ", ") origs) ++ [')']

/-- Step 2 of `handleConflicts` (value collision): find the first entry whose
value is a string equal to the candidate text; prompt only when that key is
a non-empty string different from the current candidate key.  `c2` is the
user decision (`none` means the quick pick was dismissed), `hasEditor` and
`selText` model the active editor and its selection. -/
def valueCollisionStep (arbText : List Char) (d : Doc) (pfx selText : List Char)
    (hasEditor : Bool) (c2 : Option ValChoice) (keyToUse : List Char) : ConflictResult :=
  match findStrEq d arbText with
  | some k =>
    if k ≠ [] ∧ k ≠ keyToUse then
      match c2 with
      | none => { shouldReturn := true, keyToUse := keyToUse }
      | some .useExisting =>
        if hasEditor then
          { shouldReturn := true, keyUsed := some k, keyToUse := keyToUse,
            replacement := some (mkReplacement pfx k
              (detectAndConvertPlaceholders selText).originalPlaceholders) }
        else { shouldReturn := true, keyToUse := keyToUse }
      | some .addAnyway => { shouldReturn := false, keyToUse := keyToUse }
    else { shouldReturn := false, keyToUse := keyToUse }
  | none => { shouldReturn := false, keyToUse := keyToUse }

/-- `handleConflicts` from src/arb.ts.  The quick-pick decisions `c1`, `c2`
(`none` = dismissed) and the active-editor state are explicit parameters. -/
def handleConflicts (userKey arbText : List Char) (d : Doc) (pfx selText : List Char)
    (hasEditor : Bool) (c1 : Option KeyChoice) (c2 : Option ValChoice) : ConflictResult :=
  if truthyProp d userKey then
    match c1 with
    | none => { shouldReturn := true, keyToUse := userKey }
    | some .useExisting =>
      if hasEditor then
        { shouldReturn := true, keyUsed := some userKey, keyToUse := userKey,
          replacement := some (mkReplacement pfx userKey
            (detectAndConvertPlaceholders selText).originalPlaceholders) }
      else { shouldReturn := true, keyToUse := userKey }
    | some .createNew =>
      valueCollisionStep arbText d pfx selText hasEditor c2 (firstFree d userKey)
  else valueCollisionStep arbText d pfx selText hasEditor c2 userKey

/-! ### Resource Store read path -/

/-- The user decision at the invalid-JSON error message. -/
inductive ResetChoice where
  | reset
  | cancel
deriving Repr, DecidableEq

/-- Outcome of `JSON.parse` on the file content: the parse throws (invalid
JSON), succeeds with a non-null value (the ARB object; any non-null value is
returned as-is and is bundled here as the document case), or succeeds with
the JSON literal `null` (file content `null`), which the function returns
as-is — that is, returns null without any prompt or reported error. -/
inductive ParseOutcome where
  | failed
  | document (d : Doc)
  | nullLiteral
deriving DecidableEq

/-- Observable actions of `readOrCreateArbFile`. -/
inductive RcAction where
  | readFileA
  | promptParseFailure
  | writeEmptyA
  | mkdirA
  | reportIoError
deriving Repr, DecidableEq

/-- `readOrCreateArbFile` from src/arb.ts with its effects made explicit:
`fileExists`/`folderExists` are the `fs.existsSync` answers, `readOk` the
outcome of `readFile`, `parsed` the JSON.parse outcome (which may be the
JSON literal null, returned as-is), `resetChoice` the user decision at the
parse-failure message, and the remaining flags the outcomes of the
write/mkdir calls (a `false` models a thrown error reaching the outer
catch).  Returns the result together with the performed actions. -/
def readOrCreateArbFile (fileExists folderExists readOk : Bool) (parsed : ParseOutcome)
    (resetChoice : Option ResetChoice) (resetWriteOk createWriteOk mkdirOk : Bool) :
    Option Doc × List RcAction :=
  if fileExists then
    if readOk then
      match parsed with
      | .document doc => (some doc, [.readFileA])
      | .nullLiteral => (none, [.readFileA])
      | .failed =>
        match resetChoice with
        | some .reset =>
          if resetWriteOk then (some [], [.readFileA, .promptParseFailure, .writeEmptyA])
          else (none, [.readFileA, .promptParseFailure, .reportIoError])
        | _ => (none, [.readFileA, .promptParseFailure])
    else (none, [.readFileA, .reportIoError])
  else
    if folderExists then
      if createWriteOk then (some [], [.writeEmptyA])
      else (none, [.reportIoError])
    else
      if mkdirOk then
        if createWriteOk then (some [], [.mkdirA, .writeEmptyA])
        else (none, [.mkdirA, .reportIoError])
      else (none, [.reportIoError])

/-! ### Translation fan-out -/

/-- The per-target effect outcomes of one iteration of the translation loop:
the read-or-created document (`none` models the null fallback), the
translation outcome (`none` models a rejected `translateWithGemini`
promise), and the outcome of the target file write. -/
structure TargetEnv where
  readDoc : Option Doc
  translated : Option (List Char)
  writeOk : Bool

/-- Outcome of one target iteration: a successfully written document, or a
failure caught by the per-target catch block. -/
inductive TargetResult where
  | written (d : Doc)
  | failed
deriving Repr, DecidableEq

/-- One iteration of the `for (const lang of targetLanguages)` loop of
`performTranslations`: read or create the target document (a null read
falls back to the empty document), translate, insert the translation with
marker handling, and write.  Any failure is caught and yields `failed`
without affecting other targets. -/
def processTarget (key srcText : List Char) (env : TargetEnv) : TargetResult :=
  let d0 := env.readDoc.getD []
  match env.translated with
  | none => .failed
  | some tr =>
    let d1 := insertEntry d0 key tr (detectAndConvertPlaceholders srcText).arbPlaceholders
    if env.writeOk then .written d1 else .failed

/-- The translation fan-out of `performTranslations` over the discovered
target languages: every language is processed, each with its own effect
environment and its own catch block. -/
def performTranslations (key srcText : List Char) (targetLanguages : List (List Char))
    (envs : List Char → TargetEnv) : List (List Char × TargetResult) :=
  targetLanguages.map (fun lang => (lang, processTarget key srcText (envs lang)))

/-- The outcome recorded for a given language. -/
def lookupResult (l : List Char) (rs : List (List Char × TargetResult)) : Option TargetResult :=
  (rs.find? (fun p => decide (p.1 = l))).map (fun p => p.2)

/-! ### Helper lemmas -/

/-- An invariant preserved by every step of a left fold is preserved by the fold. -/
theorem foldlInv {α σ : Type _} (P : σ → Prop) (f : σ → α → σ)
    (h : ∀ s a, P s → P (f s a)) : ∀ (l : List α) (s : σ), P s → P (l.foldl f s)
  | [], _, hs => hs
  | a :: l, s, hs => foldlInv P f h l (f s a) (h s a hs)

/-- The Dart-conversion step either leaves both lists unchanged or appends the
original expression and its derived name together, the former only when the
expression was not yet recorded. -/
theorem stepDart_lists (st : PlaceholderInfo) (m : List Char × List Char) :
    ((stepDart st m).originalPlaceholders = st.originalPlaceholders ∧
     (stepDart st m).arbPlaceholders = st.arbPlaceholders) ∨
    (m.2 ∉ st.originalPlaceholders ∧
     (stepDart st m).originalPlaceholders = st.originalPlaceholders ++ [m.2] ∧
     (stepDart st m).arbPlaceholders = st.arbPlaceholders ++ [simpleNameOf m.2]) := by
  unfold stepDart
  dsimp only
  by_cases h1 : m.2 ∈ st.originalPlaceholders
  · rw [if_pos h1]
    split <;> exact Or.inl ⟨rfl, rfl⟩
  · rw [if_neg h1]
    split <;> exact Or.inr ⟨h1, rfl, rfl⟩

/-- The ARB-collection step either leaves both lists unchanged or appends the
name to both, the latter only when the name was not yet recorded. -/
theorem stepArb_lists (st : PlaceholderInfo) (n : List Char) :
    ((stepArb st n).originalPlaceholders = st.originalPlaceholders ∧
     (stepArb st n).arbPlaceholders = st.arbPlaceholders) ∨
    (n ∉ st.arbPlaceholders ∧
     (stepArb st n).originalPlaceholders = st.originalPlaceholders ++ [n] ∧
     (stepArb st n).arbPlaceholders = st.arbPlaceholders ++ [n]) := by
  unfold stepArb
  by_cases h1 : n ∈ st.arbPlaceholders
  · rw [if_pos h1]
    exact Or.inl ⟨rfl, rfl⟩
  · rw [if_neg h1]
    exact Or.inr ⟨h1, rfl, rfl⟩

/-- Both loop bodies preserve equality of the two list lengths. -/
theorem lengthInv_det (t : List Char) :
    (detectAndConvertPlaceholders t).originalPlaceholders.length
      = (detectAndConvertPlaceholders t).arbPlaceholders.length := by
  have step1 : ∀ (st : PlaceholderInfo) (m : List Char × List Char),
      st.originalPlaceholders.length = st.arbPlaceholders.length →
      (stepDart st m).originalPlaceholders.length = (stepDart st m).arbPlaceholders.length := by
    intro st m h
    rcases stepDart_lists st m with ⟨h1, h2⟩ | ⟨_, h1, h2⟩ <;> simp [h1, h2, h]
  have step2 : ∀ (st : PlaceholderInfo) (n : List Char),
      st.originalPlaceholders.length = st.arbPlaceholders.length →
      (stepArb st n).originalPlaceholders.length = (stepArb st n).arbPlaceholders.length := by
    intro st n h
    rcases stepArb_lists st n with ⟨h1, h2⟩ | ⟨_, h1, h2⟩ <;> simp [h1, h2, h]
  unfold detectAndConvertPlaceholders
  exact foldlInv _ _ step2 _ _ (foldlInv _ _ step1 _ _ rfl)

/-- The zipped (original, name) pair list stays duplicate-free through both loops. -/
theorem zipNodup_det (t : List Char) :
    ((detectAndConvertPlaceholders t).originalPlaceholders.zip
      (detectAndConvertPlaceholders t).arbPlaceholders).Nodup := by
  have step1 : ∀ (st : PlaceholderInfo) (m : List Char × List Char),
      (st.originalPlaceholders.length = st.arbPlaceholders.length ∧
        (st.originalPlaceholders.zip st.arbPlaceholders).Nodup) →
      ((stepDart st m).originalPlaceholders.length = (stepDart st m).arbPlaceholders.length ∧
        ((stepDart st m).originalPlaceholders.zip (stepDart st m).arbPlaceholders).Nodup) := by
    intro st m ⟨hl, hn⟩
    rcases stepDart_lists st m with ⟨h1, h2⟩ | ⟨hmem, h1, h2⟩
    · simp [h1, h2, hl, hn]
    · refine ⟨by simp [h1, h2, hl], ?_⟩
      rw [h1, h2, List.zip_append (by simp [hl])]
      simp only [List.zip_cons_cons, List.zip_nil_left]
      rw [List.nodup_append]
      refine ⟨hn, List.nodup_singleton _, ?_⟩
      intro p hp hp1
      simp only [List.mem_singleton] at hp1
      subst hp1
      have : (m.2, simpleNameOf m.2).1 ∈
          (st.originalPlaceholders.zip st.arbPlaceholders).map Prod.fst :=
        List.mem_map_of_mem Prod.fst hp
      rw [List.map_fst_zip _ _ (le_of_eq hl)] at this
      exact hmem this
  have step2 : ∀ (st : PlaceholderInfo) (n : List Char),
      (st.originalPlaceholders.length = st.arbPlaceholders.length ∧
        (st.originalPlaceholders.zip st.arbPlaceholders).Nodup) →
      ((stepArb st n).originalPlaceholders.length = (stepArb st n).arbPlaceholders.length ∧
        ((stepArb st n).originalPlaceholders.zip (stepArb st n).arbPlaceholders).Nodup) := by
    intro st n ⟨hl, hn⟩
    rcases stepArb_lists st n with ⟨h1, h2⟩ | ⟨hmem, h1, h2⟩
    · simp [h1, h2, hl, hn]
    · refine ⟨by simp [h1, h2, hl], ?_⟩
      rw [h1, h2, List.zip_append (by simp [hl])]
      simp only [List.zip_cons_cons, List.zip_nil_left]
      rw [List.nodup_append]
      refine ⟨hn, List.nodup_singleton _, ?_⟩
      intro p hp hp1
      simp only [List.mem_singleton] at hp1
      subst hp1
      have : (n, n).2 ∈ (st.originalPlaceholders.zip st.arbPlaceholders).map Prod.snd :=
        List.mem_map_of_mem Prod.snd hp
      rw [List.map_snd_zip _ _ (ge_of_eq hl)] at this
      exact hmem this
  unfold detectAndConvertPlaceholders
  have base : (PlaceholderInfo.mk [] [] t).originalPlaceholders.length
        = (PlaceholderInfo.mk [] [] t).arbPlaceholders.length ∧
      ((PlaceholderInfo.mk [] [] t).originalPlaceholders.zip
        (PlaceholderInfo.mk [] [] t).arbPlaceholders).Nodup :=
    ⟨rfl, by simp⟩
  exact (foldlInv
    (fun st => st.originalPlaceholders.length = st.arbPlaceholders.length ∧
      (st.originalPlaceholders.zip st.arbPlaceholders).Nodup)
    stepArb step2 _ _
    (foldlInv _ stepDart step1 _ _ base)).2

/-- A text without a dollar sign has no Dart-placeholder match. -/
theorem dartScanAux_no_dollar : ∀ (fuel : Nat) (s : List Char),
    (∀ c ∈ s, c ≠ '$') → dartScanAux fuel s = [] := by
  intro fuel
  induction fuel with
  | zero => intro s _; rfl
  | succ n ih =>
    intro s h
    cases s with
    | nil => rfl
    | cons c r =>
      have hc : c ≠ '$' := h c (List.mem_cons_self c r)
      simp only [dartScanAux, if_neg hc]
      exact ih r (fun d hd => h d (List.mem_cons_of_mem c hd))

/-- The ARB-collection step never changes the text. -/
theorem stepArb_arbText (st : PlaceholderInfo) (n : List Char) :
    (stepArb st n).arbText = st.arbText := by
  unfold stepArb; split <;> rfl

/-- The ARB-collection loop never changes the text. -/
theorem foldl_stepArb_arbText : ∀ (l : List (List Char)) (st : PlaceholderInfo),
    (l.foldl stepArb st).arbText = st.arbText
  | [], _ => rfl
  | n :: l, st => by
    rw [List.foldl_cons, foldl_stepArb_arbText l (stepArb st n), stepArb_arbText]

/-- On a text without a dollar sign the converter leaves the text unchanged. -/
theorem arbText_fixed_of_no_dollar (s : List Char) (h : '$' ∉ s) :
    (detectAndConvertPlaceholders s).arbText = s := by
  unfold detectAndConvertPlaceholders
  have hscan : dartScan s = [] := by
    unfold dartScan
    exact dartScanAux_no_dollar _ s (fun c hc he => h (he ▸ hc))
  rw [hscan, List.foldl_nil, foldl_stepArb_arbText]

/-- Every word produced by the whitespace split is non-empty and consists of
non-whitespace characters of the input. -/
theorem wordsByAux_chars : ∀ (fuel : Nat) (l : List Char) (w : List Char),
    w ∈ wordsByAux fuel l → w ≠ [] ∧ ∀ c ∈ w, c ∈ l ∧ isJsWs c = false := by
  intro fuel
  induction fuel with
  | zero => intro l w hw; simp [wordsByAux] at hw
  | succ n ih =>
    intro l w hw
    cases l with
    | nil => simp [wordsByAux] at hw
    | cons c r =>
      by_cases hc : isJsWs c
      · rw [wordsByAux, if_pos hc] at hw
        obtain ⟨hne, hmem⟩ := ih r w hw
        exact ⟨hne, fun d hd => ⟨List.mem_cons_of_mem c (hmem d hd).1, (hmem d hd).2⟩⟩
      · rw [wordsByAux, if_neg hc] at hw
        rcases List.mem_cons.1 hw with he | ht
        · subst he
          refine ⟨by simp, ?_⟩
          intro d hd
          rcases List.mem_cons.1 hd with hdc | hdt
          · subst hdc
            exact ⟨List.mem_cons_self _ _, by simpa using hc⟩
          · refine ⟨List.mem_cons_of_mem c ((List.takeWhile_sublist _).subset hdt), ?_⟩
            have := List.mem_takeWhile_imp hdt
            simpa using this
        · obtain ⟨hne, hmem⟩ := ih _ w ht
          exact ⟨hne, fun d hd =>
            ⟨List.mem_cons_of_mem c ((List.dropWhile_sublist _).subset (hmem d hd).1),
              (hmem d hd).2⟩⟩

/-- Trimming only removes characters: the trimmed text is a subset of the input. -/
theorem trimWs_subset (l : List Char) : ∀ c ∈ trimWs l, c ∈ l := by
  intro c hc
  unfold trimWs at hc
  rw [List.mem_reverse] at hc
  have h1 := (List.dropWhile_sublist (l := (l.dropWhile isJsWs).reverse) isJsWs).subset hc
  rw [List.mem_reverse] at h1
  exact (List.dropWhile_sublist isJsWs).subset h1

/-- Lowercasing an uppercase ASCII letter yields a lowercase letter or digit. -/
theorem lower_range_shape : ∀ n, n < 123 → 97 ≤ n →
    (isLowerAlpha (Char.ofNat n) || isDigitCh (Char.ofNat n)) = true := by decide

/-- Uppercasing a lowercase ASCII letter yields an alphanumeric character. -/
theorem upper_range_alnum : ∀ n, n < 91 → 65 ≤ n →
    isAlnumCh (Char.ofNat n) = true := by decide

/-- A kept character that is not whitespace becomes, after lowercasing, a
lowercase letter or digit. -/
theorem lowerChar_shape (c : Char) (hk : isKeepChar c = true)
    (hw : isJsWs (lowerChar c) = false) :
    (isLowerAlpha (lowerChar c) || isDigitCh (lowerChar c)) = true := by
  unfold isKeepChar isAlnumCh at hk
  unfold lowerChar
  simp only [Bool.or_eq_true, Bool.and_eq_true, decide_eq_true_eq] at hk
  rcases hk with ((hlo | hup) | hdig) | hws
  · rw [if_neg (by simp only [Bool.and_eq_true, decide_eq_true_eq]; omega)]
    simp only [isLowerAlpha, isDigitCh, Bool.or_eq_true, Bool.and_eq_true,
      decide_eq_true_eq]
    omega
  · rw [if_pos (by simp only [Bool.and_eq_true, decide_eq_true_eq]; exact hup)]
    exact lower_range_shape (c.toNat + 32) (by omega) (by omega)
  · rw [if_neg (by simp only [Bool.and_eq_true, decide_eq_true_eq]; omega)]
    simp only [isLowerAlpha, isDigitCh, Bool.or_eq_true, Bool.and_eq_true,
      decide_eq_true_eq]
    omega
  · exfalso
    have hno : ¬(65 ≤ c.toNat ∧ c.toNat ≤ 90) := by
      simp only [isJsWs, Bool.or_eq_true, Bool.and_eq_true, decide_eq_true_eq,
        beq_iff_eq] at hws
      omega
    have hlc : lowerChar c = c := by
      unfold lowerChar
      rw [if_neg (by simpa only [Bool.and_eq_true, decide_eq_true_eq] using hno)]
    rw [hlc] at hw
    rw [hw] at hws
    exact Bool.noConfusion hws

/-- A lowercase letter or digit is alphanumeric. -/
theorem lowerOrDigit_alnum (c : Char)
    (h : (isLowerAlpha c || isDigitCh c) = true) : isAlnumCh c = true := by
  simp only [isLowerAlpha, isDigitCh, isAlnumCh, Bool.or_eq_true, Bool.and_eq_true,
    decide_eq_true_eq] at h ⊢
  omega

/-- Capitalising a lowercase letter or digit yields an alphanumeric character. -/
theorem capChar_alnum (c : Char)
    (h : (isLowerAlpha c || isDigitCh c) = true) : isAlnumCh (capChar c) = true := by
  simp only [isLowerAlpha, isDigitCh, Bool.or_eq_true, Bool.and_eq_true,
    decide_eq_true_eq] at h
  unfold capChar
  rcases h with hlo | hdig
  · rw [if_pos (by simp only [Bool.and_eq_true, decide_eq_true_eq]; exact hlo)]
    exact upper_range_alnum (c.toNat - 32) (by omega) (by omega)
  · rw [if_neg (by simp only [Bool.and_eq_true, decide_eq_true_eq]; omega)]
    simp only [isAlnumCh, Bool.or_eq_true, Bool.and_eq_true, decide_eq_true_eq]
    omega

/-- `generateSuggestedKey` is the truncation of `keyCore` with fallback. -/
theorem generateSuggestedKey_eq (t : List Char) :
    generateSuggestedKey t =
      (if ((keyCore t).take 40).isEmpty then strL "myString" else (keyCore t).take 40) := rfl

/-- Every character of a word of the lowered text is a lowercase letter or digit. -/
theorem lowered_word_chars (t : List Char) (w : List Char)
    (hw : w ∈ wordsBy ((trimWs ((stripBraced t).filter isKeepChar)).map lowerChar)) :
    w ≠ [] ∧ ∀ c ∈ w, (isLowerAlpha c || isDigitCh c) = true := by
  obtain ⟨hne, hmem⟩ := wordsByAux_chars _ _ w hw
  refine ⟨hne, fun c hc => ?_⟩
  obtain ⟨hin, hnws⟩ := hmem c hc
  obtain ⟨c0, hc0, hceq⟩ := List.mem_map.1 hin
  have hk : isKeepChar c0 = true :=
    (List.mem_filter.1 (trimWs_subset _ c0 hc0)).2
  subst hceq
  exact lowerChar_shape c0 hk hnws

/-- Every character of the pre-truncation key is alphanumeric. -/
theorem keyCore_chars (t : List Char) : ∀ c ∈ keyCore t, isAlnumCh c = true := by
  intro c hc
  unfold keyCore at hc
  obtain ⟨w, hwmem, hcw⟩ := List.mem_flatten.1 hc
  cases hws : wordsBy ((trimWs ((stripBraced t).filter isKeepChar)).map lowerChar) with
  | nil => rw [hws] at hwmem; simp [camelMap] at hwmem
  | cons w0 rest =>
    rw [hws] at hwmem
    simp only [camelMap, List.mem_cons] at hwmem
    rcases hwmem with h0 | hrest
    · rw [h0] at hcw
      have := (lowered_word_chars t w0
        (by rw [hws]; exact List.mem_cons_self _ _)).2 c hcw
      exact lowerOrDigit_alnum c this
    · obtain ⟨w1, hw1, hw1eq⟩ := List.mem_map.1 hrest
      have hchars := (lowered_word_chars t w1
        (by rw [hws]; exact List.mem_cons_of_mem _ hw1)).2
      subst hw1eq
      cases w1 with
      | nil => simp [capWordHead] at hcw
      | cons d dr =>
        simp only [capWordHead, List.mem_cons] at hcw
        rcases hcw with hcd | hcdr
        · subst hcd
          exact capChar_alnum d (hchars d (List.mem_cons_self _ _))
        · exact lowerOrDigit_alnum c (hchars c (List.mem_cons_of_mem _ hcdr))

/-- The first character of the pre-truncation key is a lowercase letter or digit. -/
theorem keyCore_head (t : List Char) (d : Char) (rest : List Char)
    (h : keyCore t = d :: rest) : (isLowerAlpha d || isDigitCh d) = true := by
  unfold keyCore at h
  cases hws : wordsBy ((trimWs ((stripBraced t).filter isKeepChar)).map lowerChar) with
  | nil => rw [hws] at h; simp [camelMap] at h
  | cons w0 wrest =>
    rw [hws] at h
    obtain ⟨hne, hchars⟩ := lowered_word_chars t w0
      (by rw [hws]; exact List.mem_cons_self _ _)
    cases w0 with
    | nil => exact absurd rfl hne
    | cons e er =>
      simp only [camelMap, List.flatten_cons, List.cons_append] at h
      injection h with h1 _
      have := hchars e (List.mem_cons_self _ _)
      rw [h1] at this
      exact this

/-- Setting a key makes it retrievable with the new value. -/
theorem getProp_setProp_self : ∀ (d : Doc) (k : List Char) (v : ArbValue),
    getProp (setProp d k v) k = some v
  | [], k, v => by simp [setProp, getProp]
  | e :: rest, k, v => by
    by_cases h : e.1 = k
    · simp [setProp, getProp, h]
    · simp only [setProp, if_neg h, getProp]
      exact getProp_setProp_self rest k v

/-- Setting a key leaves other keys untouched. -/
theorem getProp_setProp_ne : ∀ (d : Doc) (k m : List Char) (v : ArbValue), m ≠ k →
    getProp (setProp d k v) m = getProp d m
  | [], k, m, v, h => by
    simp only [setProp, getProp]
    rw [if_neg (fun he => h he.symm)]
  | e :: rest, k, m, v, h => by
    by_cases he : e.1 = k
    · simp only [setProp, if_pos he, getProp]
      rw [if_neg (fun hc => h hc.symm), if_neg (fun hc => h (he ▸ hc).symm)]
    · simp only [setProp, if_neg he, getProp]
      by_cases hem : e.1 = m
      · rw [if_pos hem, if_pos hem]
      · rw [if_neg hem, if_neg hem]
        exact getProp_setProp_ne rest k m v h

/-- Deleting a key leaves other keys untouched. -/
theorem getProp_delProp_ne : ∀ (d : Doc) (k m : List Char), m ≠ k →
    getProp (delProp d k) m = getProp d m
  | [], _, _, _ => rfl
  | e :: rest, k, m, h => by
    by_cases he : e.1 = k
    · simp only [delProp, if_pos he, getProp]
      rw [if_neg (fun hem : e.1 = m => h ((he ▸ hem : k = m)).symm)]
      exact getProp_delProp_ne rest k m h
    · simp only [delProp, if_neg he, getProp]
      by_cases hem : e.1 = m
      · rw [if_pos hem, if_pos hem]
      · rw [if_neg hem, if_neg hem]
        exact getProp_delProp_ne rest k m h

/-- A deleted key is no longer among the keys. -/
theorem not_mem_keysOf_delProp : ∀ (d : Doc) (k : List Char),
    k ∉ keysOf (delProp d k)
  | [], k => by simp [delProp, keysOf]
  | e :: rest, k => by
    by_cases he : e.1 = k
    · simp only [delProp, if_pos he]
      exact not_mem_keysOf_delProp rest k
    · simp only [delProp, if_neg he, keysOf, List.map_cons, List.mem_cons, not_or]
      exact ⟨fun hc => he hc.symm, not_mem_keysOf_delProp rest k⟩

/-- An absent key is not retrievable. -/
theorem getProp_eq_none_of_not_mem : ∀ (d : Doc) (k : List Char),
    k ∉ keysOf d → getProp d k = none
  | [], _, _ => rfl
  | e :: rest, k, h => by
    simp only [keysOf, List.map_cons, List.mem_cons, not_or] at h
    simp only [getProp]
    rw [if_neg (fun hc => h.1 hc.symm)]
    exact getProp_eq_none_of_not_mem rest k (by simpa [keysOf] using h.2)

/-- Keys after a set: either an old key or the set key. -/
theorem mem_keysOf_setProp : ∀ (d : Doc) (k m : List Char) (v : ArbValue),
    m ∈ keysOf (setProp d k v) → m ∈ keysOf d ∨ m = k
  | [], k, m, v, h => by
    simp only [setProp, keysOf, List.map_cons, List.map_nil, List.mem_singleton] at h
    exact Or.inr h
  | e :: rest, k, m, v, h => by
    by_cases he : e.1 = k
    · simp only [setProp, if_pos he, keysOf, List.map_cons, List.mem_cons] at h
      rcases h with h | h
      · exact Or.inr h
      · exact Or.inl (List.mem_cons_of_mem _ h)
    · simp only [setProp, if_neg he, keysOf, List.map_cons, List.mem_cons] at h
      rcases h with h | h
      · exact Or.inl (by simp [keysOf, h])
      · rcases mem_keysOf_setProp rest k m v h with h1 | h1
        · exact Or.inl (List.mem_cons_of_mem _ (by simpa [keysOf] using h1))
        · exact Or.inr h1

/-- Setting an absent key appends it at the end. -/
theorem setProp_of_not_mem : ∀ (d : Doc) (k : List Char) (v : ArbValue),
    k ∉ keysOf d → setProp d k v = d ++ [(k, v)]
  | [], _, _, _ => rfl
  | e :: rest, k, v, h => by
    simp only [keysOf, List.map_cons, List.mem_cons, not_or] at h
    simp only [setProp]
    rw [if_neg (fun hc => h.1 hc.symm), List.cons_append]
    rw [setProp_of_not_mem rest k v (by simpa [keysOf] using h.2)]

/-- Re-setting the final entry of a document whose earlier part does not hold
the key updates that final entry in place. -/
theorem setProp_concat_self : ∀ (d : Doc) (k : List Char) (x v : ArbValue),
    k ∉ keysOf d → setProp (d ++ [(k, x)]) k v = d ++ [(k, v)]
  | [], k, x, v, _ => by simp [setProp]
  | e :: rest, k, x, v, h => by
    simp only [keysOf, List.map_cons, List.mem_cons, not_or] at h
    simp only [List.cons_append, setProp]
    rw [if_neg (fun hc => h.1 hc.symm)]
    exact congrArg (e :: ·) (setProp_concat_self rest k x v (by simpa [keysOf] using h.2))

/-- The last key of a document ending in a given entry. -/
theorem lastKeyOf_concat (d : Doc) (k : List Char) (v : ArbValue) :
    lastKeyOf (d ++ [(k, v)]) = some k := by
  unfold lastKeyOf
  rw [List.getLast?_concat]
  rfl

/-- A key is never its own metadata key. -/
theorem metaKey_ne_self (k : List Char) : metaKey k ≠ k := by
  intro h
  have := congrArg List.length h
  simp [metaKey] at this

/-- Core sentinel-preservation property of the shared detach-mutate-reattach
write pattern: if the document holds the sentinel and the inserted key is not
the sentinel key itself, then after the mutation the sentinel is present and
is the last key. -/
theorem insertEntry_marker_last (d : Doc) (key val : List Char) (phs : List (List Char))
    (hm : hasProp d markerKey = true) (hk : key ≠ markerKey) :
    hasProp (insertEntry d key val phs) markerKey = true ∧
    lastKeyOf (insertEntry d key val phs) = some markerKey := by
  obtain ⟨v0, hv0⟩ := Option.isSome_iff_exists.1 hm
  unfold insertEntry
  rw [hv0, if_pos hm]
  dsimp only
  have h1 : markerKey ∉ keysOf (delProp d markerKey) := not_mem_keysOf_delProp d markerKey
  have h2 : markerKey ∉ keysOf (setProp (delProp d markerKey) key (.vstr val)) := by
    intro hmem
    rcases mem_keysOf_setProp _ _ _ _ hmem with h | h
    · exact h1 h
    · exact hk h.symm
  by_cases hempty : phs.isEmpty
  · rw [if_pos hempty, setProp_of_not_mem _ _ _ h2]
    refine ⟨?_, lastKeyOf_concat _ _ _⟩
    unfold hasProp
    rw [← setProp_of_not_mem _ _ _ h2, getProp_setProp_self]
    rfl
  · rw [if_neg hempty]
    by_cases hmk : metaKey key = markerKey
    · rw [hmk, setProp_of_not_mem _ _ _ h2,
        setProp_concat_self _ _ _ _ h2]
      refine ⟨?_, lastKeyOf_concat _ _ _⟩
      unfold hasProp
      rw [← setProp_of_not_mem _ _ _ h2, getProp_setProp_self]
      rfl
    · have h3 : markerKey ∉ keysOf (setProp (setProp (delProp d markerKey) key (.vstr val))
          (metaKey key) (.vmeta (dedupKeys phs))) := by
        intro hmem
        rcases mem_keysOf_setProp _ _ _ _ hmem with h | h
        · exact h2 h
        · exact hmk h.symm
      rw [setProp_of_not_mem _ _ _ h3]
      refine ⟨?_, lastKeyOf_concat _ _ _⟩
      unfold hasProp
      rw [← setProp_of_not_mem _ _ _ h3, getProp_setProp_self]
      rfl

/-- After the detach-mutate-reattach write pattern the inserted key holds the
new value, and the metadata entry is present whenever the placeholder list is
non-empty, provided neither the key nor its metadata key is the sentinel key. -/
theorem insertEntry_getProp (d : Doc) (key val : List Char) (phs : List (List Char))
    (hk : key ≠ markerKey) (hmk : metaKey key ≠ markerKey) :
    getProp (insertEntry d key val phs) key = some (.vstr val) ∧
    (phs ≠ [] → getProp (insertEntry d key val phs) (metaKey key)
      = some (.vmeta (dedupKeys phs))) := by
  unfold insertEntry
  by_cases hm : hasProp d markerKey
  · obtain ⟨v0, hv0⟩ := Option.isSome_iff_exists.1 hm
    rw [hv0, if_pos hm]
    dsimp only
    constructor
    · rw [getProp_setProp_ne _ _ _ _ hk]
      by_cases hempty : phs.isEmpty
      · rw [if_pos hempty, getProp_setProp_self]
      · rw [if_neg hempty,
          getProp_setProp_ne _ _ _ _ (fun hc => metaKey_ne_self key hc.symm),
          getProp_setProp_self]
    · intro hne
      rw [if_neg (by simpa using hne), getProp_setProp_ne _ _ _ _ hmk,
        getProp_setProp_self]
  · have hg : getProp d markerKey = none := by
      unfold hasProp at hm
      exact Option.not_isSome_iff_eq_none.1 (by simpa using hm)
    rw [hg, if_neg hm]
    dsimp only
    constructor
    · by_cases hempty : phs.isEmpty
      · rw [if_pos hempty, getProp_setProp_self]
      · rw [if_neg hempty,
          getProp_setProp_ne _ _ _ _ (fun hc => metaKey_ne_self key hc.symm),
          getProp_setProp_self]
    · intro hne
      rw [if_neg (by simpa using hne), getProp_setProp_self]

/-- Code point of a decimal digit character. -/
theorem digitCharOf_toNat : ∀ n, n < 10 → (digitCharOf n).toNat = 48 + n := by decide

/-- Appending a digit multiplies the value by ten and adds the digit. -/
theorem decVal_append_digit (l : List Char) (c : Char) :
    decVal (l ++ [c]) = decVal l * 10 + (c.toNat - 48) := by
  simp [decVal, List.foldl_append]

/-- The decimal rendering of a number evaluates back to the number. -/
theorem natDecAux_val : ∀ (fuel n : Nat), n ≤ fuel → decVal (natDecAux fuel n) = n := by
  intro fuel
  induction fuel with
  | zero =>
    intro n hn
    interval_cases n
    rfl
  | succ f ih =>
    intro n hn
    by_cases h0 : n = 0
    · subst h0; rfl
    · have hlt : n / 10 < n := Nat.div_lt_self (by omega) (by omega)
      simp only [natDecAux, if_neg h0]
      rw [decVal_append_digit, ih (n / 10) (by omega),
        digitCharOf_toNat (n % 10) (Nat.mod_lt n (by omega))]
      have := Nat.div_add_mod n 10
      omega

/-- The full decimal rendering evaluates back to the number. -/
theorem natDec_val (n : Nat) : decVal (natDec n) = n := by
  by_cases h0 : n = 0
  · subst h0; rfl
  · simp only [natDec, if_neg h0]
    exact natDecAux_val n n le_rfl

/-- Decimal rendering is injective. -/
theorem natDec_inj {m n : Nat} (h : natDec m = natDec n) : m = n := by
  rw [← natDec_val m, ← natDec_val n, h]

/-- The suffixed key is injective in the counter. -/
theorem sfxKey_inj {base : List Char} {c c' : Nat} (h : sfxKey base c = sfxKey base c') :
    c = c' := by
  unfold sfxKey at h
  have h1 := List.append_cancel_left h
  exact natDec_inj (List.cons.injEq _ _ _ _ ▸ h1).2

/-- A truthy key is among the document keys. -/
theorem mem_keysOf_of_truthy (d : Doc) (k : List Char)
    (h : truthyProp d k = true) : k ∈ keysOf d := by
  by_contra hk
  unfold truthyProp at h
  rw [getProp_eq_none_of_not_mem d k hk] at h
  exact Bool.noConfusion h

/-- Among the first `d.length + 1` suffix counters at least one is not truthy
in the document (there are more candidate keys than entries). -/
theorem exists_nontruthy_sfx (d : Doc) (base : List Char) :
    ∃ j, j < d.length + 1 ∧ truthyProp d (sfxKey base (1 + j)) = false := by
  by_contra h
  push_neg at h
  have hall : ∀ j, j < d.length + 1 → truthyProp d (sfxKey base (1 + j)) = true := by
    intro j hj
    have := h j hj
    revert this
    cases truthyProp d (sfxKey base (1 + j)) <;> simp
  have hnd : ((List.range (d.length + 1)).map (fun j => sfxKey base (1 + j))).Nodup := by
    refine List.Nodup.map ?_ (List.nodup_range _)
    intro a b hab
    have := sfxKey_inj hab
    omega
  have hsub : ((List.range (d.length + 1)).map (fun j => sfxKey base (1 + j)))
      ⊆ keysOf d := by
    intro x hx
    obtain ⟨j, hj, rfl⟩ := List.mem_map.1 hx
    exact mem_keysOf_of_truthy d _ (hall j (List.mem_range.1 hj))
  have hle := (hnd.subperm hsub).length_le
  simp only [List.length_map, List.length_range, keysOf] at hle
  omega

/-- Correctness of the bounded suffix search: if some counter within the fuel
is not truthy, the loop stops at the first such counter. -/
theorem firstFreeAux_spec (d : Doc) (base : List Char) : ∀ (fuel c : Nat),
    (∃ j, j < fuel ∧ truthyProp d (sfxKey base (c + j)) = false) →
    ∃ j, truthyProp d (sfxKey base (c + j)) = false ∧
      (∀ i, i < j → truthyProp d (sfxKey base (c + i)) = true) ∧
      firstFreeAux d base fuel c = sfxKey base (c + j) := by
  intro fuel
  induction fuel with
  | zero =>
    intro c hex
    obtain ⟨j, hj, _⟩ := hex
    omega
  | succ f ih =>
    intro c hex
    obtain ⟨j, hj, hfree⟩ := hex
    by_cases h0 : truthyProp d (sfxKey base c) = true
    · have hj0 : j ≠ 0 := by
        intro he
        subst he
        rw [Nat.add_zero] at hfree
        rw [h0] at hfree
        exact Bool.noConfusion hfree
      obtain ⟨j', hfree', hmin', heq'⟩ := ih (c + 1)
        ⟨j - 1, by omega, by rw [show c + 1 + (j - 1) = c + j by omega]; exact hfree⟩
      refine ⟨j' + 1, ?_, ?_, ?_⟩
      · rw [show c + (j' + 1) = c + 1 + j' by omega]
        exact hfree'
      · intro i hi
        cases i with
        | zero => rw [Nat.add_zero]; exact h0
        | succ i' =>
          rw [show c + (i' + 1) = c + 1 + i' by omega]
          exact hmin' i' (by omega)
      · simp only [firstFreeAux, if_pos h0]
        rw [heq']
        congr 1
        omega
    · have h0f : truthyProp d (sfxKey base c) = false := by
        revert h0
        cases truthyProp d (sfxKey base c) <;> simp
      refine ⟨0, by rw [Nat.add_zero]; exact h0f, fun i hi => absurd hi (by omega), ?_⟩
      simp only [firstFreeAux, if_neg h0]
      rw [Nat.add_zero]

/-- The suffix search returns `userKey_c` for the least counter `c ≥ 1` whose
generated key is not a truthy entry. -/
theorem firstFree_spec (d : Doc) (base : List Char) :
    ∃ c, 1 ≤ c ∧ truthyProp d (sfxKey base c) = false ∧
      (∀ i, 1 ≤ i → i < c → truthyProp d (sfxKey base i) = true) ∧
      firstFree d base = sfxKey base c := by
  obtain ⟨j, hj, hfree⟩ := exists_nontruthy_sfx d base
  obtain ⟨j0, hfree0, hmin0, heq0⟩ :=
    firstFreeAux_spec d base (d.length + 1) 1 ⟨j, hj, hfree⟩
  refine ⟨1 + j0, by omega, hfree0, ?_, heq0⟩
  intro i h1 h2
  have := hmin0 (i - 1) (by omega)
  rw [show 1 + (i - 1) = i by omega] at this
  exact this

/-- The value-collision step never changes the candidate key. -/
theorem valueCollisionStep_keyToUse (arbText : List Char) (d : Doc)
    (pfx selText : List Char) (hasEditor : Bool) (c2 : Option ValChoice) (k : List Char) :
    (valueCollisionStep arbText d pfx selText hasEditor c2 k).keyToUse = k := by
  unfold valueCollisionStep
  cases findStrEq d arbText with
  | none => rfl
  | some k' =>
    dsimp only
    by_cases hc : k' ≠ [] ∧ k' ≠ k
    · rw [if_pos hc]
      cases c2 with
      | none => rfl
      | some v =>
        cases v with
        | useExisting => cases hasEditor <;> rfl
        | addAnyway => rfl
    · rw [if_neg hc]

/-- A hit of the value search is an entry of the document whose value is the
string being searched for. -/
theorem findStrEq_mem (d : Doc) (t k : List Char) (h : findStrEq d t = some k) :
    (k, ArbValue.vstr t) ∈ d := by
  unfold findStrEq at h
  cases hf : d.find? (fun e =>
      match e.2 with
      | .vstr s => decide (s = t)
      | .vmeta _ => false) with
  | none => rw [hf] at h; exact Option.noConfusion h
  | some e =>
    rw [hf] at h
    have hk : e.1 = k := by
      simpa using h
    have hp := List.find?_some hf
    have hmem := List.mem_of_find?_eq_some hf
    obtain ⟨k0, v0⟩ := e
    cases v0 with
    | vstr s =>
      simp only [decide_eq_true_eq] at hp
      subst hp
      cases hk
      exact hmem
    | vmeta _ => exact Bool.noConfusion hp

/-- Any ReuseExisting outcome produced by the value-collision step, for an
arbitrary current candidate key, returns the first entry whose value is a
string equal to the candidate text, with a non-empty key different from the
current candidate key. -/
theorem valueCollisionStep_keyUsed (arbText : List Char) (d : Doc) (pfx selText : List Char)
    (hasEditor : Bool) (c2 : Option ValChoice) (kc k : List Char)
    (hk : (valueCollisionStep arbText d pfx selText hasEditor c2 kc).keyUsed = some k) :
    findStrEq d arbText = some k ∧ (k, ArbValue.vstr arbText) ∈ d ∧
    k ≠ [] ∧ k ≠ kc := by
  unfold valueCollisionStep at hk
  cases hfind : findStrEq d arbText with
  | none =>
    rw [hfind] at hk
    simp at hk
  | some k' =>
    rw [hfind] at hk
    dsimp only at hk
    by_cases hc : k' ≠ [] ∧ k' ≠ kc
    · rw [if_pos hc] at hk
      cases c2 with
      | none => simp at hk
      | some v =>
        cases v with
        | useExisting =>
          cases hasEditor with
          | false => simp at hk
          | true =>
            have hkk : k' = k := by simpa using hk
            subst hkk
            exact ⟨rfl, findStrEq_mem d arbText k' hfind, hc.1, hc.2⟩
        | addAnyway => simp at hk
    · rw [if_neg hc] at hk
      simp at hk

/-- Looking a language up in a result list with one more entry. -/
theorem lookupResult_cons (l a : List Char) (x : TargetResult)
    (rs : List (List Char × TargetResult)) :
    lookupResult l ((a, x) :: rs) = if a = l then some x else lookupResult l rs := by
  unfold lookupResult
  rw [List.find?_cons]
  by_cases h : a = l
  · simp [h]
  · simp [h]

/-- A target whose translation and write succeed produces a written document
following the shared insert pattern. -/
theorem processTarget_written (key srcText tr : List Char) (env : TargetEnv)
    (htr : env.translated = some tr) (hw : env.writeOk = true) :
    processTarget key srcText env = .written (insertEntry (env.readDoc.getD []) key tr
      (detectAndConvertPlaceholders srcText).arbPlaceholders) := by
  unfold processTarget
  rw [htr]
  dsimp only
  rw [if_pos hw]

/-! ### Claim theorems -/

/-- C7: for every input text the output of detectAndConvertPlaceholders has as
many original expressions as placeholder names (same cardinality and index
correspondence). -/
theorem C7_originals_arbPlaceholders_length (t : List Char) :
    (detectAndConvertPlaceholders t).originalPlaceholders.length
      = (detectAndConvertPlaceholders t).arbPlaceholders.length :=
  lengthInv_det t

/-- C6 counterexample: on the input `$a ${b.a}` the returned placeholder-name
list is `["a", "a", "b.a"]`, which is not pairwise distinct, so the claim
that arbPlaceholders always contains pairwise-distinct names is false. -/
theorem C6_counterexample :
    ¬ (detectAndConvertPlaceholders (strL "$a $\x7bb.a\x7d")).arbPlaceholders.Nodup := by
  decide

/-- C6 amended: deduplication is keyed on the original expression in the Dart
loop and on the name in the ARB loop, so the names alone may repeat; what is
always duplicate-free is the list of (original expression, placeholder name)
pairs. -/
theorem C6_zip_nodup (t : List Char) :
    ((detectAndConvertPlaceholders t).originalPlaceholders.zip
      (detectAndConvertPlaceholders t).arbPlaceholders).Nodup :=
  zipNodup_det t

/-- C5 counterexample: on the input `9` the suggested key is `9`, which neither
matches `^[a-z][a-zA-Z0-9]*$` (it starts with a digit) nor is the fallback
identifier `myString`. -/
theorem C5_counterexample :
    ¬ (keyShapeOk (generateSuggestedKey (strL "9")) = true ∨
       generateSuggestedKey (strL "9") = strL "myString") := by
  decide

/-- C5 amended: generateSuggestedKey is deterministic, its output has length at
most 40, and the output matches `^[a-z0-9][a-zA-Z0-9]*$` (the first character
may be a digit, since digits survive the cleaning steps in first position) or
is the literal fallback identifier `myString`. -/
theorem C5_key_shape : ∀ t t' : List Char, t = t' →
    generateSuggestedKey t = generateSuggestedKey t' ∧
    (generateSuggestedKey t).length ≤ 40 ∧
    (keyShapeRelaxed (generateSuggestedKey t) = true ∨
      generateSuggestedKey t = strL "myString") := by
  intro t t' ht
  refine ⟨by rw [ht], ?_, ?_⟩
  · rw [generateSuggestedKey_eq]
    split
    · decide
    · rw [List.length_take]
      exact min_le_left _ _
  · rw [generateSuggestedKey_eq]
    split
    · exact Or.inr rfl
    · left
      cases hcore : keyCore t with
      | nil =>
        exfalso
        rename_i hne
        rw [hcore] at hne
        exact hne rfl
      | cons d rest =>
        rw [show (40 : Nat) = 39 + 1 from rfl, List.take_succ_cons]
        have hhead := keyCore_head t d rest hcore
        have hall : ∀ c ∈ rest.take 39, isAlnumCh c = true := by
          intro c hcmem
          apply keyCore_chars t
          rw [hcore]
          exact List.mem_cons_of_mem d ((List.take_sublist _ _).subset hcmem)
        simp only [keyShapeRelaxed, Bool.and_eq_true, List.all_eq_true]
        exact ⟨hhead, hall⟩

/-- C5 witness: the amended key-shape theorem applied at the input `hello`. -/
theorem C5_key_shape_witness :
    strL "hello" = strL "hello" ∧
    (generateSuggestedKey (strL "hello") = generateSuggestedKey (strL "hello") ∧
      (generateSuggestedKey (strL "hello")).length ≤ 40 ∧
      (keyShapeRelaxed (generateSuggestedKey (strL "hello")) = true ∨
        generateSuggestedKey (strL "hello") = strL "myString")) :=
  ⟨rfl, C5_key_shape (strL "hello") (strL "hello") rfl⟩

/-- C2 counterexample: the converter is not idempotent.  On input `{u$b` the
output text is `{u{b}` with names `["b", "u{b"]`, but re-applying the
converter to `{u{b}` yields names `["u{b"]`: the name set changes.  On input
`$b ${x + y{b}` the output text is `$b {x}`, and re-applying the converter
yields `{b} {x}`: the text changes as well. -/
theorem C2_counterexample :
    (¬ ∀ x, x ∈ (detectAndConvertPlaceholders
          (detectAndConvertPlaceholders (strL "\x7bu$b")).arbText).arbPlaceholders ↔
        x ∈ (detectAndConvertPlaceholders (strL "\x7bu$b")).arbPlaceholders) ∧
    (detectAndConvertPlaceholders
        (detectAndConvertPlaceholders (strL "$b $\x7bx + y\x7bb\x7d")).arbText).arbText
      ≠ (detectAndConvertPlaceholders (strL "$b $\x7bx + y\x7bb\x7d")).arbText := by
  constructor
  · intro h
    have hb := (h (strL "b")).mpr (by decide)
    exact absurd hb (by decide)
  · decide

/-- C2 amended: re-applying the converter to its own converted text yields the
same converted text provided that text contains no dollar character (no
unconverted interpolation remnant); the placeholder-name set may differ. -/
theorem C2_idempotent_arbText (t : List Char)
    (h : '$' ∉ (detectAndConvertPlaceholders t).arbText) :
    (detectAndConvertPlaceholders (detectAndConvertPlaceholders t).arbText).arbText
      = (detectAndConvertPlaceholders t).arbText :=
  arbText_fixed_of_no_dollar _ h

/-- C2 witness: the amended idempotence theorem applies to the input
`Hi {name}`, whose converted text contains no dollar character. -/
theorem C2_idempotent_arbText_witness :
    '$' ∉ (detectAndConvertPlaceholders (strL "Hi \x7bname\x7d")).arbText ∧
    (detectAndConvertPlaceholders
        (detectAndConvertPlaceholders (strL "Hi \x7bname\x7d")).arbText).arbText
      = (detectAndConvertPlaceholders (strL "Hi \x7bname\x7d")).arbText :=
  ⟨by decide, C2_idempotent_arbText (strL "Hi \x7bname\x7d") (by decide)⟩

/-- C1 counterexample: when the inserted key is the sentinel key itself and the
value contains a placeholder, the metadata entry is appended after the
re-added sentinel and the final in-place restore does not move the sentinel,
so the sentinel is not the last serialized key. -/
theorem C1_counterexample :
    hasProp [(markerKey, ArbValue.vstr (strL "m"))] markerKey = true ∧
    lastKeyOf (updateSourceArb [(markerKey, ArbValue.vstr (strL "m"))] markerKey
        (strL "Hi \x7bname\x7d") true).2 ≠ some markerKey := by
  exact ⟨by decide, by decide⟩

/-- C1 amended: for every document containing the sentinel entry, after a write
performed by updateSourceArb, and after each per-target write in
performTranslations, the sentinel is present and is the last key in
serialized order, provided the inserted key is not the sentinel key itself. -/
theorem C1_sentinel_preserved (d : Doc) (key value srcText tr : List Char) (wOk : Bool)
    (hm : hasProp d markerKey = true) (hk : key ≠ markerKey) :
    (hasProp (updateSourceArb d key value wOk).2 markerKey = true ∧
      lastKeyOf (updateSourceArb d key value wOk).2 = some markerKey) ∧
    (processTarget key srcText ⟨some d, some tr, true⟩ = .written
        (insertEntry d key tr (detectAndConvertPlaceholders srcText).arbPlaceholders) ∧
      hasProp (insertEntry d key tr (detectAndConvertPlaceholders srcText).arbPlaceholders)
          markerKey = true ∧
      lastKeyOf (insertEntry d key tr (detectAndConvertPlaceholders srcText).arbPlaceholders)
        = some markerKey) := by
  refine ⟨insertEntry_marker_last d key value _ hm hk, rfl, ?_⟩
  exact insertEntry_marker_last d key tr _ hm hk

/-- C1 witness: the amended sentinel-preservation theorem applied to a concrete
document holding the sentinel and the inserted key `b`. -/
theorem C1_sentinel_preserved_witness :
    hasProp [(strL "a", ArbValue.vstr (strL "Hello")), (markerKey, ArbValue.vstr (strL "m"))]
        markerKey = true ∧
    strL "b" ≠ markerKey ∧
    (hasProp (updateSourceArb
        [(strL "a", ArbValue.vstr (strL "Hello")), (markerKey, ArbValue.vstr (strL "m"))]
        (strL "b") (strL "Bye") true).2 markerKey = true ∧
      lastKeyOf (updateSourceArb
        [(strL "a", ArbValue.vstr (strL "Hello")), (markerKey, ArbValue.vstr (strL "m"))]
        (strL "b") (strL "Bye") true).2 = some markerKey) :=
  ⟨by decide, by decide,
    (C1_sentinel_preserved
      [(strL "a", ArbValue.vstr (strL "Hello")), (markerKey, ArbValue.vstr (strL "m"))]
      (strL "b") (strL "Bye") (strL "Bye") (strL "Au revoir") true
      (by decide) (by decide)).1⟩

/-- C10 counterexample: with the inserted key `_END_OF_FILE`, whose metadata key
equals the sentinel key, a failing write returns false but the in-memory
document does not contain the metadata entry even though the value has
placeholders: the final sentinel restore overwrote it. -/
theorem C10_counterexample :
    (updateSourceArb [(markerKey, ArbValue.vstr (strL "m"))] (strL "_END_OF_FILE")
        (strL "Hi \x7bname\x7d") false).1 = false ∧
    (detectAndConvertPlaceholders (strL "Hi \x7bname\x7d")).arbPlaceholders ≠ [] ∧
    getProp (updateSourceArb [(markerKey, ArbValue.vstr (strL "m"))] (strL "_END_OF_FILE")
        (strL "Hi \x7bname\x7d") false).2 (metaKey (strL "_END_OF_FILE"))
      ≠ some (.vmeta (dedupKeys
          (detectAndConvertPlaceholders (strL "Hi \x7bname\x7d")).arbPlaceholders)) := by
  exact ⟨rfl, by decide, by decide⟩

/-- C10 amended: updateSourceArb mutates the document in place and, when the
file write fails, returns false while the in-memory document still contains
the inserted key and value, the metadata entry when placeholders exist, and
the sentinel re-appended as the last key — provided neither the inserted key
nor its metadata key is the sentinel key.  The mutation is not rolled back. -/
theorem C10_mutation_kept_on_write_failure (d : Doc) (key value : List Char)
    (hk : key ≠ markerKey) (hmk : metaKey key ≠ markerKey) :
    (updateSourceArb d key value false).1 = false ∧
    getProp (updateSourceArb d key value false).2 key = some (.vstr value) ∧
    ((detectAndConvertPlaceholders value).arbPlaceholders ≠ [] →
      getProp (updateSourceArb d key value false).2 (metaKey key)
        = some (.vmeta (dedupKeys (detectAndConvertPlaceholders value).arbPlaceholders))) ∧
    (hasProp d markerKey = true →
      hasProp (updateSourceArb d key value false).2 markerKey = true ∧
      lastKeyOf (updateSourceArb d key value false).2 = some markerKey) := by
  obtain ⟨h1, h2⟩ := insertEntry_getProp d key value
    (detectAndConvertPlaceholders value).arbPlaceholders hk hmk
  exact ⟨rfl, h1, h2, fun hm => insertEntry_marker_last d key value _ hm hk⟩

/-- C10 witness: the amended theorem applied to a concrete document with the
sentinel, inserting key `b` with a placeholder value under a failing write. -/
theorem C10_mutation_kept_on_write_failure_witness :
    strL "b" ≠ markerKey ∧
    metaKey (strL "b") ≠ markerKey ∧
    ((updateSourceArb [(markerKey, ArbValue.vstr (strL "m"))] (strL "b")
        (strL "Hi \x7bname\x7d") false).1 = false ∧
      getProp (updateSourceArb [(markerKey, ArbValue.vstr (strL "m"))] (strL "b")
          (strL "Hi \x7bname\x7d") false).2 (strL "b")
        = some (.vstr (strL "Hi \x7bname\x7d")) ∧
      ((detectAndConvertPlaceholders (strL "Hi \x7bname\x7d")).arbPlaceholders ≠ [] →
        getProp (updateSourceArb [(markerKey, ArbValue.vstr (strL "m"))] (strL "b")
            (strL "Hi \x7bname\x7d") false).2 (metaKey (strL "b"))
          = some (.vmeta (dedupKeys
              (detectAndConvertPlaceholders (strL "Hi \x7bname\x7d")).arbPlaceholders))) ∧
      (hasProp [(markerKey, ArbValue.vstr (strL "m"))] markerKey = true →
        hasProp (updateSourceArb [(markerKey, ArbValue.vstr (strL "m"))] (strL "b")
            (strL "Hi \x7bname\x7d") false).2 markerKey = true ∧
        lastKeyOf (updateSourceArb [(markerKey, ArbValue.vstr (strL "m"))] (strL "b")
            (strL "Hi \x7bname\x7d") false).2 = some markerKey)) :=
  ⟨by decide, by decide,
    C10_mutation_kept_on_write_failure [(markerKey, ArbValue.vstr (strL "m"))] (strL "b")
      (strL "Hi \x7bname\x7d") (by decide) (by decide)⟩

/-- C3 counterexample: the key-collision test uses JS truthiness, so a key
whose existing value is the empty string is treated as absent.  With document
`{"k": ""}` and candidate key `k`, handleConflicts proceeds with `k`, which
already exists as a translatable entry. -/
theorem C3_counterexample :
    (handleConflicts (strL "k") (strL "x") [(strL "k", ArbValue.vstr [])] (strL "S")
        (strL "") true none none).shouldReturn = false ∧
    (handleConflicts (strL "k") (strL "x") [(strL "k", ArbValue.vstr [])] (strL "S")
        (strL "") true none none).keyToUse = strL "k" ∧
    getProp [(strL "k", ArbValue.vstr [])] (strL "k") = some (ArbValue.vstr []) := by
  exact ⟨by decide, by decide, by decide⟩

/-- C3 amended: whenever handleConflicts terminates with the Proceed outcome,
the returned keyToUse is not a truthy entry of the document (it may still
exist with an empty-string value, since the collision tests use JS
truthiness); when the key was generated by suffixing, it is the candidate
with `_1`, `_2`, ... appended, using the first counter whose generated key
is not a truthy entry. -/
theorem C3_proceed_key_not_truthy (userKey arbText : List Char) (d : Doc)
    (pfx selText : List Char) (hasEditor : Bool) (c1 : Option KeyChoice) (c2 : Option ValChoice)
    (hp : (handleConflicts userKey arbText d pfx selText hasEditor c1 c2).shouldReturn = false) :
    truthyProp d (handleConflicts userKey arbText d pfx selText hasEditor c1 c2).keyToUse
      = false ∧
    ((handleConflicts userKey arbText d pfx selText hasEditor c1 c2).keyToUse = userKey ∨
      ∃ c, 1 ≤ c ∧
        (handleConflicts userKey arbText d pfx selText hasEditor c1 c2).keyToUse
          = sfxKey userKey c ∧
        truthyProp d (sfxKey userKey c) = false ∧
        ∀ i, 1 ≤ i → i < c → truthyProp d (sfxKey userKey i) = true) := by
  unfold handleConflicts at hp ⊢
  by_cases ht : truthyProp d userKey = true
  · rw [if_pos ht] at hp ⊢
    cases c1 with
    | none => simp at hp
    | some ch =>
      cases ch with
      | useExisting =>
        cases hasEditor with
        | false => simp at hp
        | true => simp at hp
      | createNew =>
        dsimp only at hp ⊢
        obtain ⟨c, hc1, hcfree, hcmin, hceq⟩ := firstFree_spec d userKey
        rw [valueCollisionStep_keyToUse, hceq]
        exact ⟨hcfree, Or.inr ⟨c, hc1, rfl, hcfree, hcmin⟩⟩
  · have htf : truthyProp d userKey = false := by
      revert ht
      cases truthyProp d userKey <;> simp
    rw [if_neg ht]
    rw [valueCollisionStep_keyToUse]
    exact ⟨htf, Or.inl rfl⟩

/-- C3 witness: the amended Proceed theorem applied to the document
`{"k": "v"}` with candidate `k` and the create-new-key decision, yielding the
suffixed key `k_1`. -/
theorem C3_proceed_key_not_truthy_witness :
    (handleConflicts (strL "k") (strL "x") [(strL "k", ArbValue.vstr (strL "v"))] (strL "S")
        (strL "") true (some .createNew) none).shouldReturn = false ∧
    (truthyProp [(strL "k", ArbValue.vstr (strL "v"))]
        (handleConflicts (strL "k") (strL "x") [(strL "k", ArbValue.vstr (strL "v"))] (strL "S")
          (strL "") true (some .createNew) none).keyToUse = false ∧
      ((handleConflicts (strL "k") (strL "x") [(strL "k", ArbValue.vstr (strL "v"))] (strL "S")
          (strL "") true (some .createNew) none).keyToUse = strL "k" ∨
        ∃ c, 1 ≤ c ∧
          (handleConflicts (strL "k") (strL "x") [(strL "k", ArbValue.vstr (strL "v"))] (strL "S")
            (strL "") true (some .createNew) none).keyToUse = sfxKey (strL "k") c ∧
          truthyProp [(strL "k", ArbValue.vstr (strL "v"))] (sfxKey (strL "k") c) = false ∧
          ∀ i, 1 ≤ i → i < c →
            truthyProp [(strL "k", ArbValue.vstr (strL "v"))] (sfxKey (strL "k") i) = true)) :=
  ⟨by decide,
    C3_proceed_key_not_truthy (strL "k") (strL "x") [(strL "k", ArbValue.vstr (strL "v"))]
      (strL "S") (strL "") true (some .createNew) none (by decide)⟩

/-- C8 counterexample: the value-collision search tests only that the stored
value is a string equal to the candidate text, so the reserved sentinel
entry — which is never a translatable entry — can trigger the prompt and be
returned by ReuseExisting when its value matches. -/
theorem C8_counterexample :
    (handleConflicts (strL "k") (strL "Hello") [(markerKey, ArbValue.vstr (strL "Hello"))]
        (strL "S") (strL "") true none (some .useExisting)).shouldReturn = true ∧
    (handleConflicts (strL "k") (strL "Hello") [(markerKey, ArbValue.vstr (strL "Hello"))]
        (strL "S") (strL "") true none (some .useExisting)).keyUsed = some markerKey ∧
    markerKey.head? = some '@' := by
  exact ⟨by decide, by decide, by decide⟩

/-- C8 amended: every ReuseExisting outcome of handleConflicts is either the
step-1 reuse of the colliding candidate key itself, or a step-2 hit: the
first entry in document order whose value is a string equal to the
placeholder-converted candidate text (metadata entries are excluded by the
string-type test, but the sentinel or any `@`-prefixed key holding a string
is included), whose key is non-empty and differs from the current candidate
key — where the current candidate is the original key or, after a step-1
create-new-key rename, the suffixed key produced by the counter search. -/
theorem C8_reuse_existing_characterized (userKey arbText : List Char) (d : Doc)
    (pfx selText : List Char) (hasEditor : Bool) (c1 : Option KeyChoice) (c2 : Option ValChoice)
    (k : List Char)
    (hk : (handleConflicts userKey arbText d pfx selText hasEditor c1 c2).keyUsed = some k) :
    (truthyProp d userKey = true ∧ c1 = some .useExisting ∧ k = userKey ∧
      (handleConflicts userKey arbText d pfx selText hasEditor c1 c2).keyToUse = userKey) ∨
    (findStrEq d arbText = some k ∧ (k, ArbValue.vstr arbText) ∈ d ∧ k ≠ [] ∧
      k ≠ (handleConflicts userKey arbText d pfx selText hasEditor c1 c2).keyToUse ∧
      ((handleConflicts userKey arbText d pfx selText hasEditor c1 c2).keyToUse = userKey ∨
        (truthyProp d userKey = true ∧ c1 = some .createNew ∧
          (handleConflicts userKey arbText d pfx selText hasEditor c1 c2).keyToUse
            = firstFree d userKey))) := by
  unfold handleConflicts at hk ⊢
  by_cases ht : truthyProp d userKey = true
  · rw [if_pos ht] at hk ⊢
    cases c1 with
    | none => simp at hk
    | some ch =>
      cases ch with
      | useExisting =>
        cases hasEditor with
        | false => simp at hk
        | true =>
          have hkk : userKey = k := by simpa using hk
          exact Or.inl ⟨ht, rfl, hkk.symm, rfl⟩
      | createNew =>
        dsimp only at hk ⊢
        obtain ⟨h1, h2, h3, h4⟩ := valueCollisionStep_keyUsed arbText d pfx selText
          hasEditor c2 (firstFree d userKey) k hk
        rw [valueCollisionStep_keyToUse]
        exact Or.inr ⟨h1, h2, h3, h4, Or.inr ⟨ht, rfl, rfl⟩⟩
  · rw [if_neg ht] at hk ⊢
    obtain ⟨h1, h2, h3, h4⟩ := valueCollisionStep_keyUsed arbText d pfx selText
      hasEditor c2 userKey k hk
    rw [valueCollisionStep_keyToUse]
    exact Or.inr ⟨h1, h2, h3, h4, Or.inl rfl⟩

/-- C8 witness: the characterization applied on the step-1 rename path.  In the
document `{"k": "v", "dup": "Hello"}` the candidate key `k` collides, the
create-new-key decision renames it to `k_1`, and step 2 then reuses `dup`,
the entry holding the candidate text, against the suffixed candidate. -/
theorem C8_reuse_existing_characterized_witness :
    (handleConflicts (strL "k") (strL "Hello")
        [(strL "k", ArbValue.vstr (strL "v")), (strL "dup", ArbValue.vstr (strL "Hello"))]
        (strL "S") (strL "") true (some .createNew) (some .useExisting)).keyUsed
      = some (strL "dup") ∧
    ((truthyProp [(strL "k", ArbValue.vstr (strL "v")),
          (strL "dup", ArbValue.vstr (strL "Hello"))] (strL "k") = true ∧
        some KeyChoice.createNew = some KeyChoice.useExisting ∧ strL "dup" = strL "k" ∧
        (handleConflicts (strL "k") (strL "Hello")
          [(strL "k", ArbValue.vstr (strL "v")), (strL "dup", ArbValue.vstr (strL "Hello"))]
          (strL "S") (strL "") true (some .createNew) (some .useExisting)).keyToUse
          = strL "k") ∨
      (findStrEq [(strL "k", ArbValue.vstr (strL "v")),
          (strL "dup", ArbValue.vstr (strL "Hello"))] (strL "Hello") = some (strL "dup") ∧
        (strL "dup", ArbValue.vstr (strL "Hello")) ∈
          [(strL "k", ArbValue.vstr (strL "v")), (strL "dup", ArbValue.vstr (strL "Hello"))] ∧
        strL "dup" ≠ [] ∧
        strL "dup" ≠ (handleConflicts (strL "k") (strL "Hello")
          [(strL "k", ArbValue.vstr (strL "v")), (strL "dup", ArbValue.vstr (strL "Hello"))]
          (strL "S") (strL "") true (some .createNew) (some .useExisting)).keyToUse ∧
        ((handleConflicts (strL "k") (strL "Hello")
            [(strL "k", ArbValue.vstr (strL "v")), (strL "dup", ArbValue.vstr (strL "Hello"))]
            (strL "S") (strL "") true (some .createNew) (some .useExisting)).keyToUse
            = strL "k" ∨
          (truthyProp [(strL "k", ArbValue.vstr (strL "v")),
              (strL "dup", ArbValue.vstr (strL "Hello"))] (strL "k") = true ∧
            some KeyChoice.createNew = some KeyChoice.createNew ∧
            (handleConflicts (strL "k") (strL "Hello")
              [(strL "k", ArbValue.vstr (strL "v")),
                (strL "dup", ArbValue.vstr (strL "Hello"))]
              (strL "S") (strL "") true (some .createNew) (some .useExisting)).keyToUse
              = firstFree [(strL "k", ArbValue.vstr (strL "v")),
                  (strL "dup", ArbValue.vstr (strL "Hello"))] (strL "k"))))) :=
  ⟨by decide,
    C8_reuse_existing_characterized (strL "k") (strL "Hello")
      [(strL "k", ArbValue.vstr (strL "v")), (strL "dup", ArbValue.vstr (strL "Hello"))]
      (strL "S") (strL "") true (some .createNew) (some .useExisting) (strL "dup")
      (by decide)⟩

/-- C4: in the translation fan-out each target language is processed with its
own effect environment and its own catch block, so a failure at one target
never aborts the others: for any assignment of per-target outcomes, every
language in the target list whose own translation and write succeed is
recorded with a successful write of its document, and all targets are
processed. -/
theorem C4_translation_isolation (key srcText : List Char) (langs : List (List Char))
    (envs : List Char → TargetEnv) (l tr : List Char)
    (hmem : l ∈ langs) (htr : (envs l).translated = some tr)
    (hw : (envs l).writeOk = true) :
    (performTranslations key srcText langs envs).length = langs.length ∧
    lookupResult l (performTranslations key srcText langs envs)
      = some (.written (insertEntry ((envs l).readDoc.getD []) key tr
          (detectAndConvertPlaceholders srcText).arbPlaceholders)) := by
  refine ⟨by simp [performTranslations], ?_⟩
  induction langs with
  | nil => cases hmem
  | cons a rest ih =>
    show lookupResult l ((a, processTarget key srcText (envs a)) ::
      performTranslations key srcText rest envs) = _
    rw [lookupResult_cons]
    by_cases hal : a = l
    · rw [if_pos hal, hal, processTarget_written key srcText tr (envs l) htr hw]
    · rw [if_neg hal]
      rcases List.mem_cons.1 hmem with he | hrest
      · exact absurd he.symm hal
      · exact ih hrest

/-- C4 witness: with targets `es` and `fr` where translation for `fr` fails
deterministically, the other target `es` still receives a successful write. -/
theorem C4_translation_isolation_witness :
    strL "es" ∈ [strL "es", strL "fr"] ∧
    ((fun l => if l = strL "fr" then TargetEnv.mk (some []) none true
        else TargetEnv.mk (some []) (some (strL "Hola")) true) (strL "es")).translated
      = some (strL "Hola") ∧
    ((fun l => if l = strL "fr" then TargetEnv.mk (some []) none true
        else TargetEnv.mk (some []) (some (strL "Hola")) true) (strL "es")).writeOk = true ∧
    ((performTranslations (strL "greeting") (strL "Hello") [strL "es", strL "fr"]
        (fun l => if l = strL "fr" then TargetEnv.mk (some []) none true
          else TargetEnv.mk (some []) (some (strL "Hola")) true)).length
        = [strL "es", strL "fr"].length ∧
      lookupResult (strL "es") (performTranslations (strL "greeting") (strL "Hello")
          [strL "es", strL "fr"]
          (fun l => if l = strL "fr" then TargetEnv.mk (some []) none true
            else TargetEnv.mk (some []) (some (strL "Hola")) true))
        = some (.written (insertEntry
            (((fun l => if l = strL "fr" then TargetEnv.mk (some []) none true
              else TargetEnv.mk (some []) (some (strL "Hola")) true)
                (strL "es")).readDoc.getD [])
            (strL "greeting") (strL "Hola")
            (detectAndConvertPlaceholders (strL "Hello")).arbPlaceholders))) :=
  ⟨by decide, by decide, by decide,
    C4_translation_isolation (strL "greeting") (strL "Hello") [strL "es", strL "fr"]
      (fun l => if l = strL "fr" then TargetEnv.mk (some []) none true
        else TargetEnv.mk (some []) (some (strL "Hola")) true)
      (strL "es") (strL "Hola") (by decide) (by decide) (by decide)⟩

/-- C9 counterexample: two null returns that are not an explicit abort at the
parse-failure decision point.  When the file does not exist and the
empty-file write fails, readOrCreateArbFile returns null from the outer
catch with no prompt; and when the file content is the JSON literal null,
JSON.parse succeeds and the null value is returned as-is with no prompt and
no reported error. -/
theorem C9_counterexample :
    ((readOrCreateArbFile false false true .failed none true false true).1 = none ∧
      RcAction.promptParseFailure ∉
        (readOrCreateArbFile false false true .failed none true false true).2) ∧
    ((readOrCreateArbFile true true true .nullLiteral none true true true).1 = none ∧
      RcAction.promptParseFailure ∉
        (readOrCreateArbFile true true true .nullLiteral none true true true).2 ∧
      RcAction.reportIoError ∉
        (readOrCreateArbFile true true true .nullLiteral none true true true).2) := by
  exact ⟨⟨by decide, by decide⟩, by decide, by decide, by decide⟩

/-- C9 amended: readOrCreateArbFile returns null exactly when the caller
declines the reset at the parse-failure decision point, or when an I/O error
is reported (read, write, or mkdir failure reaching a catch block), or when
the existing file parses successfully to the JSON literal null, which is
returned as-is with no prompt and no reported error; if the file does not
exist and I/O succeeds, it creates the enclosing directory (when missing)
and an empty document and returns the empty document; on parse failure it
offers the reset-or-abort choice, and an existing file is only overwritten
with the empty document after the reset choice. -/
theorem C9_null_iff_abort_or_io_error (fe fo ro : Bool) (parsed : ParseOutcome)
    (rc : Option ResetChoice) (rwk cw mk : Bool) :
    ((readOrCreateArbFile fe fo ro parsed rc rwk cw mk).1 = none ↔
      ((fe = true ∧ ro = true ∧ parsed = .failed ∧ rc ≠ some .reset) ∨
        (fe = true ∧ ro = true ∧ parsed = .nullLiteral) ∨
        .reportIoError ∈ (readOrCreateArbFile fe fo ro parsed rc rwk cw mk).2)) ∧
    (fe = false → mk = true → cw = true →
      (readOrCreateArbFile fe fo ro parsed rc rwk cw mk).1 = some [] ∧
      .writeEmptyA ∈ (readOrCreateArbFile fe fo ro parsed rc rwk cw mk).2 ∧
      (fo = false → .mkdirA ∈ (readOrCreateArbFile fe fo ro parsed rc rwk cw mk).2)) ∧
    (fe = true → ro = true → parsed = .failed →
      .promptParseFailure ∈ (readOrCreateArbFile fe fo ro parsed rc rwk cw mk).2) ∧
    (fe = true → ro = true → parsed = .nullLiteral →
      (readOrCreateArbFile fe fo ro parsed rc rwk cw mk).1 = none ∧
      .promptParseFailure ∉ (readOrCreateArbFile fe fo ro parsed rc rwk cw mk).2 ∧
      .reportIoError ∉ (readOrCreateArbFile fe fo ro parsed rc rwk cw mk).2) ∧
    (fe = true → .writeEmptyA ∈ (readOrCreateArbFile fe fo ro parsed rc rwk cw mk).2 →
      rc = some .reset ∧
      .promptParseFailure ∈ (readOrCreateArbFile fe fo ro parsed rc rwk cw mk).2) := by
  cases fe <;> cases fo <;> cases ro <;> cases rwk <;> cases cw <;> cases mk <;>
    cases parsed <;> rcases rc with _ | rv <;> try cases rv
  all_goals simp [readOrCreateArbFile]

/-- C9 witness: with a missing file and successful directory and file creation,
the empty document is returned and both the mkdir and the write happen. -/
theorem C9_null_iff_abort_or_io_error_witness :
    (readOrCreateArbFile false false true .failed none true true true).1 = some [] ∧
    RcAction.writeEmptyA ∈
      (readOrCreateArbFile false false true .failed none true true true).2 ∧
    (false = false →
      RcAction.mkdirA ∈ (readOrCreateArbFile false false true .failed none true true true).2) :=
  (C9_null_iff_abort_or_io_error false false true .failed none true true true).2.1 rfl rfl rfl

end StringToArb
